import Mathlib

/-!
# Quizizz-Parser (`main.go`): text normalisation, answer extraction, notification

A shallow embedding of `main.go`.

* A Go `string` is modelled as `List Char` (its sequence of code points).  Every string
  the program handles is produced by `json.Unmarshal`, hence valid UTF-8, and every
  pattern the program searches for (`<br>`, `<`, `>`, `&nbsp;`) is ASCII, so searching and
  comparing code point by code point agrees with Go's byte-wise search and byte-wise
  string comparison.
* The Go `int` answer index is an `Int`; the slice lookup `Options[Answer]` is the one
  place of `getAnswer` that can raise a run-time panic, modelled by `none`.
* The network, the file system and the JSON codec are inputs of the model (`World`);
  what the program prints and requests is recorded as a list of `Event`s.
* `sort.Slice` is library code whose result on equal keys is left open by its
  documentation; it is a parameter of `getAnswer`, constrained by `SliceContract` or,
  in the words of the library, by `SortsSlice`.
-/

namespace QuizizzParser

/-! ## Strings -/

/-- Does the text `s` begin with `p`?  The test `strings.Index` makes at one position. -/
def startsWith : List Char → List Char → Bool
  | [], _ => true
  | _ :: _, [] => false
  | p :: ps, c :: cs => p == c && startsWith ps cs

/-- The scan of `strings.Replace(s, old, new, -1)` for a non-empty `old`: the leftmost
occurrence of `old` is replaced, the scan goes on behind it.  The first argument bounds
the number of steps; `s.length` is always enough (`replaceLoop_fuel`). -/
def replaceLoop (old new : List Char) : Nat → List Char → List Char
  | 0, s => s
  | _ + 1, [] => []
  | n + 1, c :: cs =>
    if startsWith old (c :: cs) then new ++ replaceLoop old new n ((c :: cs).drop old.length)
    else c :: replaceLoop old new n cs

/-- Go's `strings.ReplaceAll(s, old, new)`: all non-overlapping instances of `old`
replaced by `new`; an empty `old` matches before every code point and at the end. -/
def ReplaceAll (s old new : List Char) : List Char :=
  match old with
  | [] => new ++ s.flatMap (fun c => c :: new)
  | _ :: _ => replaceLoop old new s.length s

/-- The part `[^>]*>` of the pattern: skip code points other than `>` (line breaks
included) up to the first `>`; the result is the text behind that `>`. -/
def afterTagEnd : List Char → Option (List Char)
  | [] => none
  | c :: cs => if c = '>' then some cs else afterTagEnd cs

/-- A match of the regular expression `<[^>]*>` anchored at the head of the text: the
text behind the match, `none` when there is no match here. -/
def matchTag : List Char → Option (List Char)
  | [] => none
  | c :: cs => if c = '<' then afterTagEnd cs else none

/-- The scan of `re.ReplaceAllString(text, "")` for `re = <[^>]*>`: successive leftmost
matches are deleted.  The first argument bounds the number of steps; `s.length` is always
enough (`deleteTagsLoop_fuel`). -/
def deleteTagsLoop : Nat → List Char → List Char
  | 0, s => s
  | _ + 1, [] => []
  | n + 1, c :: cs =>
    match matchTag (c :: cs) with
    | some rest => deleteTagsLoop n rest
    | none => c :: deleteTagsLoop n cs

/-- Go's `regexp.MustCompile("<[^>]*>").ReplaceAllString(text, "")`. -/
def deleteTags (text : List Char) : List Char :=
  deleteTagsLoop text.length text

/-- The function `removeHTMLTags` of `main.go`. -/
def removeHTMLTags (text : List Char) : List Char :=
  let text := ReplaceAll text "<br>".toList "\n".toList
  let text := deleteTags text
  let text := ReplaceAll text "&nbsp;".toList "".toList
  text

/-- The number of positions of `s` at which an occurrence of `pat` starts. -/
def countOcc (pat : List Char) : List Char → Nat
  | [] => 0
  | c :: cs => (if startsWith pat (c :: cs) then 1 else 0) + countOcc pat cs

/-! ## The quiz document and the answer list -/

/-- The configuration record `Config`. -/
structure Config where
  QuizID : List Char
  WebhookURL : List Char
  WebhookName : List Char
  ProfileURL : List Char
  deriving DecidableEq, Repr

/-- An element of `Options`: `struct { ID string; Text string }`. -/
structure OptionEntry where
  ID : List Char
  Text : List Char
  deriving DecidableEq, Repr

/-- The field `Query`: `struct { Text string }`. -/
structure QueryEntry where
  Text : List Char
  deriving DecidableEq, Repr

/-- The field `Structure` of a question. -/
structure QuestionStructure where
  Query : QueryEntry
  Answer : Int
  Options : List OptionEntry
  deriving DecidableEq, Repr

/-- An element of `Questions`. -/
structure Question where
  ID : List Char
  Structure : QuestionStructure
  deriving DecidableEq, Repr

/-- The field `Info`. -/
structure QuizInfo where
  Questions : List Question
  deriving DecidableEq, Repr

/-- The field `Quiz` of `Data`. -/
structure QuizBody where
  Info : QuizInfo
  deriving DecidableEq, Repr

/-- The field `Data`. -/
structure QuizData where
  Quiz : QuizBody
  deriving DecidableEq, Repr

/-- The decoded document `Quiz`. -/
structure Quiz where
  Data : QuizData
  deriving DecidableEq, Repr

/-- The local record type `QuestionAnswer` of `getAnswer`. -/
structure QuestionAnswer where
  ID : List Char
  Question : List Char
  Answer : List Char
  AnswerIndex : Int
  deriving DecidableEq, Repr

/-- The Go slice lookup `xs[i]` for an `int` index: `none` is the run-time panic
"index out of range", raised for a negative index and for one at or past `len(xs)`. -/
def indexSlice {α : Type} (xs : List α) (i : Int) : Option α :=
  if 0 ≤ i then xs[i.toNat]? else none

/-- The first loop of `getAnswer`: one record is appended to `qaList` per question, in
document order; a panic at the option lookup ends the loop (`none`). -/
def buildQaList : List Question → List QuestionAnswer → Option (List QuestionAnswer)
  | [], qaList => some qaList
  | question :: rest, qaList =>
    let questionText := removeHTMLTags question.Structure.Query.Text
    match indexSlice question.Structure.Options question.Structure.Answer with
    | none => none
    | some opt =>
      let answer := removeHTMLTags opt.Text
      let qa : QuestionAnswer :=
        { ID := question.ID
          Question := questionText
          Answer := answer
          AnswerIndex := question.Structure.Answer }
      buildQaList rest (qaList ++ [qa])

/-- Go's `<` on strings: lexical order, a proper initial segment is the smaller. -/
def stringLess : List Char → List Char → Bool
  | _, [] => false
  | [], _ :: _ => true
  | a :: as, b :: bs => decide (a < b) || (a == b && stringLess as bs)

/-- The comparison function handed to `sort.Slice`: `qaList[i].ID < qaList[j].ID`. -/
def lessByID (x y : QuestionAnswer) : Bool :=
  stringLess x.ID y.ID

/-- The requirement `sort.Slice` puts on its `less` function (a strict weak order). -/
def LessOk {α : Type} (less : α → α → Bool) : Prop :=
  (∀ x, less x x = false) ∧
  (∀ x y z, less x y = true → less y z = true → less x z = true) ∧
  (∀ x y z, less x y = false → less y z = false → less x z = false)

/-- What the documentation of `sort.Slice` promises of the slice after the call, for a
`less` that meets `LessOk`: the same elements, no element before a smaller one.  The
order of elements that compare equal is not promised ("The sort is not guaranteed to be
stable"). -/
def SliceContract {α : Type} (sortSlice : (α → α → Bool) → List α → List α) : Prop :=
  ∀ less : α → α → Bool, LessOk less → ∀ l : List α,
    (sortSlice less l).Perm l ∧ (sortSlice less l).Pairwise (fun x y => less y x = false)

/-- Go's `sort.SliceIsSorted(x, less)`: its loop
`for i := n - 1; i > 0; i-- { if less(i, i-1) { return false } }` finds no element that
is less than the element before it. -/
def SliceIsSorted {α : Type} (less : α → α → Bool) (l : List α) : Prop :=
  List.Chain' (fun x y => less y x = false) l

/-- The contract of `sort.Slice` in the words of the library: for a `less` that meets
`LessOk` the slice holds the same elements after the call and `sort.SliceIsSorted`
reports it sorted.  It says the same as `SliceContract` (`sortsSlice_iff_contract`). -/
def SortsSlice {α : Type} (sortSlice : (α → α → Bool) → List α → List α) : Prop :=
  ∀ less : α → α → Bool, LessOk less → ∀ l : List α,
    (sortSlice less l).Perm l ∧ SliceIsSorted less (sortSlice less l)

/-- The text of `fmt.Sprintf(format, i+1, qa.Question, qa.Answer)` for the format
"%d. **%s**\n**Answer:** `%s`\n\n": the number `k` in decimal and the two strings, set
into the format. -/
def formatEntry (k : Nat) (question answer : List Char) : List Char :=
  Nat.toDigits 10 k ++ ". **".toList ++ question ++ "**\n**Answer:** `".toList ++ answer
    ++ "`\n\n".toList

/-- The second loop of `getAnswer`: `result.WriteString(...)` for the record at index
`i`, then the records behind it. -/
def writeEntries : List QuestionAnswer → Nat → List Char → List Char
  | [], _, result => result
  | qa :: rest, i, result =>
    writeEntries rest (i + 1) (result ++ formatEntry (i + 1) qa.Question qa.Answer)

/-- The value of `qaList` in `getAnswer` behind the call of `sort.Slice`: the list the
first loop builds, sorted with the comparison by identifier.  `none` is a run-time panic
of the first loop. -/
def sortedQaList (sortSlice : (QuestionAnswer → QuestionAnswer → Bool) →
    List QuestionAnswer → List QuestionAnswer) (data : Quiz) :
    Option (List QuestionAnswer) :=
  match buildQaList data.Data.Quiz.Info.Questions [] with
  | none => none
  | some qaList => some (sortSlice lessByID qaList)

/-- The part of `getAnswer` behind the decoding of the response: build the list, sort
it with `sort.Slice`, write the entries.  `none` is a run-time panic. -/
def getAnswerDecoded (sortSlice : (QuestionAnswer → QuestionAnswer → Bool) →
    List QuestionAnswer → List QuestionAnswer) (data : Quiz) : Option (List Char) :=
  match sortedQaList sortSlice data with
  | none => none
  | some qaList => some (writeEntries qaList 0 [])

/-! ## The outside world -/

/-- An HTTP response as far as the program looks at it.  `Body` is what
`io.ReadAll(resp.Body)` returns: the bytes read and the error, if any. -/
structure Response where
  StatusCode : Int
  Status : List Char
  Body : List UInt8 × Option (List Char)

/-- The local record type `Embed` of `sendToDiscord`. -/
structure Embed where
  Title : List Char
  Description : List Char
  Color : Int
  deriving DecidableEq, Repr

/-- The local record type `Payload` of `sendToDiscord`. -/
structure Payload where
  Username : List Char
  AvatarURL : List Char
  Embeds : List Embed
  deriving DecidableEq, Repr

/-- The answers of the file system, the network and the JSON codec during one run.
An `error` value is represented by its text. -/
structure World where
  /-- `os.Open(filename)` followed by `ioutil.ReadAll`: the failure of the first, or the
  bytes and error of the second. -/
  readFile : List Char → Except (List Char) (List UInt8 × Option (List Char))
  /-- `json.Unmarshal(bytes, &config)`. -/
  unmarshalConfig : List UInt8 → Except (List Char) Config
  /-- `http.Get(url)`. -/
  httpGet : List Char → Except (List Char) Response
  /-- `json.Unmarshal(body, &data)`. -/
  unmarshalQuiz : List UInt8 → Except (List Char) Quiz
  /-- `json.Marshal(payload)`. -/
  marshalPayload : Payload → Except (List Char) (List UInt8)
  /-- `http.Post(url, contentType, body)`. -/
  httpPost : List Char → List Char → List UInt8 → Except (List Char) Response

/-- An operand of a print call. -/
inductive PrintArg where
  | str (s : List Char)
  | err (e : List Char)
  | bytes (b : List UInt8)
  deriving DecidableEq, Repr

/-- What a run does that can be observed from outside, in order. -/
inductive Event where
  | println (args : List PrintArg)
  | printf (format : List Char) (args : List PrintArg)
  | get (url : List Char)
  | post (url contentType : List Char) (body : List UInt8)
  deriving DecidableEq, Repr

/-- The function `getAnswer` of `main.go`: the events of the call and the string it
returns; `none` for a run-time panic. -/
def getAnswer (w : World) (sortSlice : (QuestionAnswer → QuestionAnswer → Bool) →
    List QuestionAnswer → List QuestionAnswer) (id : List Char) :
    List Event × Option (List Char) :=
  let url := "https://quizizz.com/quiz/".toList ++ id
  match w.httpGet url with
  | .error err =>
    ([.get url, .println [.str "Error fetching data:".toList, .err err]],
      some "Error fetching data".toList)
  | .ok resp =>
    match resp.Body with
    | (_, some err) =>
      ([.get url, .println [.str "Error reading response body:".toList, .err err]],
        some "Error reading response body".toList)
    | (body, none) =>
      match w.unmarshalQuiz body with
      | .error err =>
        ([.get url, .println [.str "Error unmarshaling JSON:".toList, .err err]],
          some "Error unmarshaling JSON".toList)
      | .ok data => ([.get url], getAnswerDecoded sortSlice data)

/-- The payload `sendToDiscord` builds before it encodes and posts it. -/
def sendToDiscordPayload (webhookName profileURL message : List Char) : Payload :=
  let embed : Embed :=
    { Title := "Quiz Answers".toList
      Description := message
      Color := 3447003 }
  { Username := webhookName
    AvatarURL := profileURL
    Embeds := [embed] }

/-- The function `sendToDiscord` of `main.go`: the events of the call. -/
def sendToDiscord (w : World) (webhookURL webhookName profileURL message : List Char) :
    List Event :=
  let payload := sendToDiscordPayload webhookName profileURL message
  match w.marshalPayload payload with
  | .error err => [.println [.str "Error marshaling payload:".toList, .err err]]
  | .ok payloadBytes =>
    .post webhookURL "application/json".toList payloadBytes ::
    match w.httpPost webhookURL "application/json".toList payloadBytes with
    | .error err => [.println [.str "Error sending message to Discord:".toList, .err err]]
    | .ok resp =>
      if resp.StatusCode ≠ 200 ∧ resp.StatusCode ≠ 204 then
        [.printf "Error sending message to Discord: %s\nResponse body: %s\n".toList
          [.str resp.Status, .bytes resp.Body.1]]
      else [.println [.str "Message sent to Discord successfully!".toList]]

/-- The function `loadConfig` of `main.go`. -/
def loadConfig (w : World) (filename : List Char) : Except (List Char) Config :=
  match w.readFile filename with
  | .error err => .error err
  | .ok (_, some err) => .error err
  | .ok (bytes, none) =>
    match w.unmarshalConfig bytes with
    | .error err => .error err
    | .ok config => .ok config

/-- How a run of the process ends. -/
inductive Ending where
  | returned
  | panicked
  deriving DecidableEq, Repr

/-- The function `main` of `main.go`: the events of the run and how it ends. -/
def main (w : World) (sortSlice : (QuestionAnswer → QuestionAnswer → Bool) →
    List QuestionAnswer → List QuestionAnswer) : List Event × Ending :=
  match loadConfig w "config.json".toList with
  | .error err => ([.println [.str "Error loading config:".toList, .err err]], .returned)
  | .ok config =>
    match getAnswer w sortSlice config.QuizID with
    | (events, none) => (events, .panicked)
    | (events, some result) =>
      (events ++ sendToDiscord w config.WebhookURL config.WebhookName config.ProfileURL result,
        .returned)

/-- The record the first loop of `getAnswer` is to build for one question: identifier,
cleaned query text, cleaned text of the option at the answer index. -/
def recordOf (q : Question) : QuestionAnswer :=
  { ID := q.ID
    Question := removeHTMLTags q.Structure.Query.Text
    Answer := removeHTMLTags
      (match q.Structure.Options[q.Structure.Answer.toNat]? with
        | some opt => opt.Text
        | none => [])
    AnswerIndex := q.Structure.Answer }

/-- The concatenation of the blocks of the records, numbered `k + 1`, `k + 2`, ... -/
def blocksFrom : Nat → List QuestionAnswer → List Char
  | _, [] => []
  | k, r :: rs => formatEntry (k + 1) r.Question r.Answer ++ blocksFrom (k + 1) rs

/-- Every question's answer index is an index into that question's option list. -/
def ValidIndices (data : Quiz) : Prop :=
  ∀ q ∈ data.Data.Quiz.Info.Questions,
    0 ≤ q.Structure.Answer ∧ q.Structure.Answer < q.Structure.Options.length

/-- A sort that meets `SliceContract` and keeps elements that compare equal in their
order: insertion sort. -/
def stableSort {α : Type} (less : α → α → Bool) (l : List α) : List α :=
  List.insertionSort (fun x y => less y x = false) l

/-- A sort that meets `SliceContract` and turns the order of elements that compare
equal around. -/
def reversingSort {α : Type} (less : α → α → Bool) (l : List α) : List α :=
  stableSort less l.reverse

/-- The fetch stage of `getAnswer` fails: the request fails, or the body cannot be read,
or it cannot be decoded. -/
def FetchFails (w : World) (id : List Char) : Prop :=
  match w.httpGet ("https://quizizz.com/quiz/".toList ++ id) with
  | .error _ => True
  | .ok resp =>
    match resp.Body with
    | (_, some _) => True
    | (body, none) =>
      match w.unmarshalQuiz body with
      | .error _ => True
      | .ok _ => False

/-! ## Sample inputs -/

/-- The two-entry document of the end-to-end scenario. -/
def specDocument : Quiz :=
  { Data := { Quiz := { Info := { Questions :=
    [ { ID := "b".toList
        Structure :=
          { Query := { Text := "Capital of <b>France</b>?".toList }
            Answer := 0
            Options := [{ ID := "b0".toList, Text := "Paris".toList },
              { ID := "b1".toList, Text := "London".toList }] } },
      { ID := "a".toList
        Structure :=
          { Query := { Text := "1+2=?".toList }
            Answer := 1
            Options := [{ ID := "a0".toList, Text := "3".toList },
              { ID := "a1".toList, Text := "4".toList }] } } ] } } } }

/-- A document whose only question points one past its two options. -/
def badIndexDocument : Quiz :=
  { Data := { Quiz := { Info := { Questions :=
    [ { ID := "a".toList
        Structure :=
          { Query := { Text := "1+2=?".toList }
            Answer := 2
            Options := [{ ID := "a0".toList, Text := "3".toList },
              { ID := "a1".toList, Text := "4".toList }] } } ] } } } }

/-- Thirteen records: twelve with the identifier `b`, told apart by the number 0 to 11 in
their question text, then one with the identifier `a`. -/
def tiedRecords : List QuestionAnswer :=
  (List.range 12).map (fun i =>
    { ID := "b".toList, Question := Nat.toDigits 10 i, Answer := "x".toList, AnswerIndex := 0 })
  ++ [{ ID := "a".toList, Question := "12".toList, Answer := "y".toList, AnswerIndex := 0 }]

/-- A configuration. -/
def sampleConfig : Config :=
  { QuizID := "q1".toList
    WebhookURL := "https://discord.example/hook".toList
    WebhookName := "bot".toList
    ProfileURL := "https://discord.example/avatar.png".toList }

/-- A world in which the configuration loads, the quiz platform cannot be reached and
the webhook accepts what it is sent. -/
def fetchDownWorld : World :=
  { readFile := fun _ => .ok ([], none)
    unmarshalConfig := fun _ => .ok sampleConfig
    httpGet := fun _ => .error "dial tcp: no route to host".toList
    unmarshalQuiz := fun _ => .error "unexpected end of JSON input".toList
    marshalPayload := fun _ => .ok [123, 125]
    httpPost := fun _ _ _ =>
      .ok { StatusCode := 204, Status := "204 No Content".toList, Body := ([], none) } }

/-- A response of the quiz platform whose body can be read. -/
def sampleResponse : Response :=
  { StatusCode := 200, Status := "200 OK".toList, Body := ([123, 125], none) }

/-- A world in which the configuration loads and the quiz platform answers with
`badIndexDocument`. -/
def badIndexWorld : World :=
  { readFile := fun _ => .ok ([], none)
    unmarshalConfig := fun _ => .ok sampleConfig
    httpGet := fun _ => .ok sampleResponse
    unmarshalQuiz := fun _ => .ok badIndexDocument
    marshalPayload := fun _ => .ok [123, 125]
    httpPost := fun _ _ _ =>
      .ok { StatusCode := 204, Status := "204 No Content".toList, Body := ([], none) } }

/-- A world in which the configuration loads and the quiz platform answers with
`specDocument`. -/
def specWorld : World :=
  { readFile := fun _ => .ok ([], none)
    unmarshalConfig := fun _ => .ok sampleConfig
    httpGet := fun _ => .ok sampleResponse
    unmarshalQuiz := fun _ => .ok specDocument
    marshalPayload := fun _ => .ok [123, 125]
    httpPost := fun _ _ _ =>
      .ok { StatusCode := 204, Status := "204 No Content".toList, Body := ([], none) } }

/-! ## Notions the properties are stated with -/

/-- No `<` of the text has a `>` anywhere behind it. -/
def TagFree (s : List Char) : Prop :=
  s.Pairwise (fun x y => ¬ (x = '<' ∧ y = '>'))

/-- The text `pat` occurs in `s`. -/
def Occurs (pat s : List Char) : Prop :=
  ∃ a c, s = a ++ pat ++ c

/-- No stretch `<...>` of the text that the pattern `<[^>]*>` can match holds a line
break. -/
def NoBreakInTag (s : List Char) : Prop :=
  ∀ a b c, s = a ++ '<' :: (b ++ '>' :: c) → '>' ∉ b → '\n' ∉ b

/-- The text made of `k` copies of `&nbsp;`. -/
def entityRun : Nat → List Char
  | 0 => []
  | k + 1 => "&nbsp;".toList ++ entityRun k

/-- The text holds `&nbsp;` with further whole copies of `&nbsp;`, at least one, set
between its characters (as `&nb&nbsp;sp;` does): the stretches a deletion of all
`&nbsp;` joins to a new `&nbsp;`. -/
def JoinedEntity (t : List Char) : Prop :=
  ∃ (a c : List Char) (k1 k2 k3 k4 k5 : Nat), 0 < k1 + k2 + k3 + k4 + k5 ∧
    t = a ++ '&' :: (entityRun k1 ++ 'n' :: (entityRun k2 ++ 'b' :: (entityRun k3 ++
      's' :: (entityRun k4 ++ 'p' :: (entityRun k5 ++ ';' :: c)))))

/-- A check of `Occurs` that can be run. -/
def occursCheck (pat : List Char) : List Char → Bool
  | [] => startsWith pat []
  | c :: cs => startsWith pat (c :: cs) || occursCheck pat cs

/-- Is there a line break in the stretch of the text before its first `>`?  (`false`
when the text has no `>`.) -/
def breakBeforeTagEnd : List Char → Bool
  | [] => false
  | c :: cs => if c = '>' then false else (c == '\n' && cs.contains '>') || breakBeforeTagEnd cs

/-- A check of `NoBreakInTag` that can be run. -/
def noBreakInTagCheck : List Char → Bool
  | [] => true
  | c :: cs => (c != '<' || !breakBeforeTagEnd cs) && noBreakInTagCheck cs

/-! ## Facts about the string scans -/

theorem br_toList : "<br>".toList = ['<', 'b', 'r', '>'] := rfl

theorem nl_toList : "\n".toList = ['\n'] := rfl

theorem nbsp_toList : "&nbsp;".toList = ['&', 'n', 'b', 's', 'p', ';'] := rfl

theorem nbspTail_toList : "nbsp;".toList = ['n', 'b', 's', 'p', ';'] := rfl

theorem empty_toList : "".toList = [] := rfl

theorem startsWith_iff (p s : List Char) : startsWith p s = true ↔ ∃ r, s = p ++ r := by
  induction p generalizing s with
  | nil => simp [startsWith]
  | cons a p ih =>
    cases s with
    | nil => simp [startsWith]
    | cons c cs =>
      simp only [startsWith, Bool.and_eq_true, beq_iff_eq, ih, List.cons_append,
        List.cons.injEq]
      constructor
      · rintro ⟨rfl, r, rfl⟩
        exact ⟨r, rfl, rfl⟩
      · rintro ⟨r, rfl, rfl⟩
        exact ⟨rfl, r, rfl⟩

theorem startsWith_drop {p s : List Char} (h : startsWith p s = true) :
    s = p ++ s.drop p.length := by
  obtain ⟨r, rfl⟩ := (startsWith_iff p s).1 h
  simp

theorem replaceLoop_delete_sublist (old : List Char) (n : Nat) (s : List Char) :
    (replaceLoop old [] n s).Sublist s := by
  induction n generalizing s with
  | zero => simp [replaceLoop]
  | succ n ih =>
    cases s with
    | nil => simp [replaceLoop]
    | cons c cs =>
      simp only [replaceLoop]
      split
      · exact (ih _).trans (List.drop_sublist _ _)
      · exact (ih cs).cons₂ c

theorem afterTagEnd_some {cs r : List Char} (h : afterTagEnd cs = some r) :
    ∃ b, cs = b ++ '>' :: r ∧ '>' ∉ b := by
  induction cs with
  | nil => simp [afterTagEnd] at h
  | cons c cs ih =>
    simp only [afterTagEnd] at h
    split at h
    · next hc =>
      cases h
      exact ⟨[], by simp [hc], by simp⟩
    · next hc =>
      obtain ⟨b, rfl, hb⟩ := ih h
      refine ⟨c :: b, rfl, ?_⟩
      simp only [List.mem_cons, not_or]
      exact ⟨fun e => hc e.symm, hb⟩

theorem afterTagEnd_none {cs : List Char} : afterTagEnd cs = none ↔ '>' ∉ cs := by
  induction cs with
  | nil => simp [afterTagEnd]
  | cons c cs ih =>
    simp only [afterTagEnd, List.mem_cons, not_or]
    split
    · next hc => simp [hc]
    · next hc =>
      rw [ih]
      exact ⟨fun h => ⟨fun e => hc e.symm, h⟩, fun h => h.2⟩

theorem deleteTagsLoop_sublist (n : Nat) (s : List Char) : (deleteTagsLoop n s).Sublist s := by
  induction n generalizing s with
  | zero => simp [deleteTagsLoop]
  | succ n ih =>
    cases s with
    | nil => simp [deleteTagsLoop]
    | cons c cs =>
      simp only [deleteTagsLoop]
      split
      · next rest h =>
        simp only [matchTag] at h
        split at h
        · obtain ⟨b, rfl, -⟩ := afterTagEnd_some h
          refine (ih rest).trans ?_
          exact ((List.sublist_cons_self _ _).trans (List.sublist_append_right _ _)).trans
            (List.sublist_cons_self _ _)
        · cases h
      · exact (ih cs).cons₂ c

theorem deleteTagsLoop_tagFree (n : Nat) (s : List Char) (h : s.length ≤ n) :
    TagFree (deleteTagsLoop n s) := by
  induction n generalizing s with
  | zero =>
    have : s = [] := List.length_eq_zero.1 (Nat.le_zero.1 h)
    subst this
    simp [deleteTagsLoop, TagFree]
  | succ n ih =>
    cases s with
    | nil => simp [deleteTagsLoop, TagFree]
    | cons c cs =>
      have hcs : cs.length ≤ n := by simpa using h
      simp only [deleteTagsLoop]
      split
      · next rest hm =>
        simp only [matchTag] at hm
        split at hm
        · obtain ⟨b, rfl, -⟩ := afterTagEnd_some hm
          apply ih
          simp only [List.length_append, List.length_cons] at hcs
          omega
        · cases hm
      · next hm =>
        unfold TagFree
        rw [List.pairwise_cons]
        refine ⟨?_, ih cs hcs⟩
        rintro y hy ⟨rfl, rfl⟩
        simp only [matchTag, if_true] at hm
        exact afterTagEnd_none.1 hm ((deleteTagsLoop_sublist n cs).subset hy)

theorem removeHTMLTags_tagFree (s : List Char) : TagFree (removeHTMLTags s) := by
  unfold removeHTMLTags ReplaceAll
  simp only [br_toList, nl_toList, nbsp_toList, empty_toList]
  exact (deleteTagsLoop_tagFree _ _ (Nat.le_refl _)).sublist (replaceLoop_delete_sublist _ _ _)

theorem TagFree.not_split {s : List Char} (h : TagFree s) (a b c : List Char) :
    s ≠ a ++ '<' :: (b ++ '>' :: c) := by
  rintro rfl
  unfold TagFree at h
  rw [List.pairwise_append] at h
  have h2 := h.2.1
  rw [List.pairwise_cons] at h2
  exact h2.1 '>' (by simp) ⟨rfl, rfl⟩

theorem TagFree.matchTag_none {s : List Char} (h : TagFree s) (a u : List Char)
    (hs : s = a ++ u) : matchTag u = none := by
  cases hm : matchTag u with
  | none => rfl
  | some r =>
    exfalso
    cases u with
    | nil => simp [matchTag] at hm
    | cons c cs =>
      simp only [matchTag] at hm
      split at hm
      · next hc =>
        obtain ⟨b, rfl, -⟩ := afterTagEnd_some hm
        subst hc
        exact h.not_split a b r hs
      · cases hm

theorem replaceLoop_fuel (old new : List Char) (hold : old ≠ []) (n m : Nat) (s : List Char)
    (hn : s.length ≤ n) (hm : s.length ≤ m) :
    replaceLoop old new n s = replaceLoop old new m s := by
  induction n generalizing m s with
  | zero =>
    have : s = [] := List.length_eq_zero.1 (Nat.le_zero.1 hn)
    subst this
    cases m <;> simp [replaceLoop]
  | succ n ih =>
    cases s with
    | nil => cases m <;> simp [replaceLoop]
    | cons c cs =>
      cases m with
      | zero => simp at hm
      | succ m =>
        have hcs : cs.length ≤ n := by simpa using hn
        have hcs2 : cs.length ≤ m := by simpa using hm
        have hpos : 0 < old.length := List.length_pos.2 hold
        simp only [replaceLoop]
        split
        · rw [ih m _ (by simp only [List.length_drop, List.length_cons]; omega)
            (by simp only [List.length_drop, List.length_cons]; omega)]
        · rw [ih m cs hcs hcs2]

/-- The scan of `strings.ReplaceAll`, without the step bound. -/
theorem ReplaceAll_cons (c : Char) (cs : List Char) (o : Char) (os new : List Char) :
    ReplaceAll (c :: cs) (o :: os) new =
      if startsWith (o :: os) (c :: cs) then
        new ++ ReplaceAll ((c :: cs).drop (o :: os).length) (o :: os) new
      else c :: ReplaceAll cs (o :: os) new := by
  simp only [ReplaceAll, List.length_cons, replaceLoop]
  split
  · rw [replaceLoop_fuel (o :: os) new (by simp) cs.length
      (List.drop (os.length + 1) (c :: cs)).length _ (by simp) (Nat.le_refl _)]
  · rfl

theorem deleteTagsLoop_fuel (n m : Nat) (s : List Char) (hn : s.length ≤ n)
    (hm : s.length ≤ m) : deleteTagsLoop n s = deleteTagsLoop m s := by
  induction n generalizing m s with
  | zero =>
    have : s = [] := List.length_eq_zero.1 (Nat.le_zero.1 hn)
    subst this
    cases m <;> simp [deleteTagsLoop]
  | succ n ih =>
    cases s with
    | nil => cases m <;> simp [deleteTagsLoop]
    | cons c cs =>
      cases m with
      | zero => simp at hm
      | succ m =>
        have hcs : cs.length ≤ n := by simpa using hn
        have hcs2 : cs.length ≤ m := by simpa using hm
        simp only [deleteTagsLoop]
        split
        · next rest h =>
          have hr : rest.length ≤ cs.length := by
            simp only [matchTag] at h
            split at h
            · obtain ⟨b, rfl, -⟩ := afterTagEnd_some h
              simp only [List.length_append, List.length_cons]
              omega
            · cases h
          exact ih m rest (by omega) (by omega)
        · rw [ih m cs hcs hcs2]

/-- The scan of `ReplaceAllString` for `<[^>]*>`, without the step bound. -/
theorem deleteTags_cons (c : Char) (cs : List Char) :
    deleteTags (c :: cs) =
      match matchTag (c :: cs) with
      | some rest => deleteTags rest
      | none => c :: deleteTags cs := by
  simp only [deleteTags, List.length_cons, deleteTagsLoop]
  split
  · next rest h =>
    have hr : rest.length ≤ cs.length := by
      simp only [matchTag] at h
      split at h
      · obtain ⟨b, rfl, -⟩ := afterTagEnd_some h
        simp only [List.length_append, List.length_cons]
        omega
      · cases h
    exact deleteTagsLoop_fuel _ _ _ hr (Nat.le_refl _)
  · rfl

theorem replaceLoop_of_not_occurs (old new : List Char) (n : Nat) (s : List Char)
    (h : ¬ Occurs old s) : replaceLoop old new n s = s := by
  induction n generalizing s with
  | zero => simp [replaceLoop]
  | succ n ih =>
    cases s with
    | nil => simp [replaceLoop]
    | cons c cs =>
      have hs : startsWith old (c :: cs) = false := by
        cases hb : startsWith old (c :: cs) with
        | false => rfl
        | true =>
          obtain ⟨r, hr⟩ := (startsWith_iff _ _).1 hb
          exact absurd ⟨[], r, by simpa using hr⟩ h
      have hcs : ¬ Occurs old cs := by
        rintro ⟨a, u, e⟩
        exact h ⟨c :: a, u, by simp [e]⟩
      simp [replaceLoop, hs, ih cs hcs]

theorem deleteTagsLoop_of_tagFree (n : Nat) (s : List Char) (h : TagFree s) :
    deleteTagsLoop n s = s := by
  induction n generalizing s with
  | zero => simp [deleteTagsLoop]
  | succ n ih =>
    cases s with
    | nil => simp [deleteTagsLoop]
    | cons c cs =>
      have hm : matchTag (c :: cs) = none := h.matchTag_none [] (c :: cs) rfl
      have hcs : TagFree cs := (List.pairwise_cons.1 h).2
      simp [deleteTagsLoop, hm, ih cs hcs]

theorem TagFree.not_occurs_br {s : List Char} (h : TagFree s) :
    ¬ Occurs ['<', 'b', 'r', '>'] s := by
  rintro ⟨a, c, e⟩
  exact h.not_split a ['b', 'r'] c (by simpa using e)

theorem replaceLoop_delete_length_lt (old : List Char) (hold : old ≠ []) (n : Nat)
    (s : List Char) (hn : s.length ≤ n) (h : Occurs old s) :
    (replaceLoop old [] n s).length < s.length := by
  induction n generalizing s with
  | zero =>
    have : s = [] := List.length_eq_zero.1 (Nat.le_zero.1 hn)
    subst this
    obtain ⟨a, c, e⟩ := h
    have := congrArg List.length e
    simp only [List.length_nil, List.length_append] at this
    have : old.length = 0 := by omega
    exact absurd (List.length_eq_zero.1 this) hold
  | succ n ih =>
    cases s with
    | nil =>
      obtain ⟨a, c, e⟩ := h
      have := congrArg List.length e
      simp only [List.length_nil, List.length_append] at this
      have : old.length = 0 := by omega
      exact absurd (List.length_eq_zero.1 this) hold
    | cons c cs =>
      have hcs : cs.length ≤ n := by simpa using hn
      simp only [replaceLoop]
      split
      · have h1 := (replaceLoop_delete_sublist old n ((c :: cs).drop old.length)).length_le
        have h2 : 0 < old.length := List.length_pos.2 hold
        simp only [List.nil_append, List.length_drop, List.length_cons] at h1 ⊢
        omega
      · next hs =>
        obtain ⟨a, u, e⟩ := h
        cases a with
        | nil =>
          exact absurd ((startsWith_iff _ _).2 ⟨u, by simpa using e⟩) hs
        | cons x a =>
          simp only [List.cons_append, List.cons.injEq] at e
          have := ih cs hcs ⟨a, u, by simpa using e.2⟩
          simp only [List.length_cons]
          omega

theorem removeHTMLTags_of_tagFree (r : List Char) (h : TagFree r) :
    removeHTMLTags r = replaceLoop ['&', 'n', 'b', 's', 'p', ';'] [] r.length r := by
  unfold removeHTMLTags ReplaceAll deleteTags
  simp only [br_toList, nl_toList, nbsp_toList, empty_toList]
  rw [replaceLoop_of_not_occurs _ _ _ _ h.not_occurs_br, deleteTagsLoop_of_tagFree _ _ h]

theorem NoBreakInTag.dropFront {s : List Char} (h : NoBreakInTag s) (k : Nat) :
    NoBreakInTag (s.drop k) := by
  intro a b c e hb
  refine h (s.take k ++ a) b c ?_ hb
  rw [List.append_assoc, ← e, List.take_append_drop]

theorem replaceLoop_br_count (n : Nat) (s : List Char) (hn : s.length ≤ n) :
    List.count '\n' (replaceLoop ['<', 'b', 'r', '>'] ['\n'] n s) =
      List.count '\n' s + countOcc ['<', 'b', 'r', '>'] s := by
  induction n generalizing s with
  | zero =>
    have : s = [] := List.length_eq_zero.1 (Nat.le_zero.1 hn)
    subst this
    simp [replaceLoop, countOcc]
  | succ n ih =>
    cases s with
    | nil => simp [replaceLoop, countOcc]
    | cons c cs =>
      have hcs : cs.length ≤ n := by simpa using hn
      simp only [replaceLoop]
      split
      · next hs =>
        obtain ⟨r, hr⟩ := (startsWith_iff _ _).1 hs
        simp only [List.cons_append, List.nil_append, List.cons.injEq] at hr
        obtain ⟨rfl, rfl⟩ := hr
        have hr : r.length ≤ n := by
          simp only [List.length_cons] at hcs
          omega
        simp [countOcc, startsWith, List.count_cons, ih r hr]
        omega
      · next hs =>
        simp [countOcc, hs, List.count_cons, ih cs hcs]
        omega

theorem deleteTagsLoop_count_eq (n : Nat) (s : List Char) (hn : s.length ≤ n)
    (h : NoBreakInTag s) : List.count '\n' (deleteTagsLoop n s) = List.count '\n' s := by
  induction n generalizing s with
  | zero => simp [deleteTagsLoop]
  | succ n ih =>
    cases s with
    | nil => simp [deleteTagsLoop]
    | cons c cs =>
      have hcs : cs.length ≤ n := by simpa using hn
      simp only [deleteTagsLoop]
      split
      · next rest hm =>
        simp only [matchTag] at hm
        split at hm
        · next hc =>
          obtain ⟨b, rfl, hb⟩ := afterTagEnd_some hm
          subst hc
          have hnl : '\n' ∉ b := h [] b rest rfl hb
          have hr : NoBreakInTag rest := by
            have := h.dropFront (b.length + 2)
            simpa [List.drop_append] using this
          have hlen : rest.length ≤ n := by
            simp only [List.length_append, List.length_cons] at hcs
            omega
          rw [ih rest hlen hr]
          simp [List.count_cons, List.count_append, List.count_eq_zero_of_not_mem hnl]
        · cases hm
      · have hd : NoBreakInTag cs := by simpa using h.dropFront 1
        simp [List.count_cons, ih cs hcs hd]

theorem replaceLoop_nbsp_count (n : Nat) (s : List Char) (hn : s.length ≤ n) :
    List.count '\n' (replaceLoop ['&', 'n', 'b', 's', 'p', ';'] [] n s) =
      List.count '\n' s := by
  induction n generalizing s with
  | zero => simp [replaceLoop]
  | succ n ih =>
    cases s with
    | nil => simp [replaceLoop]
    | cons c cs =>
      have hcs : cs.length ≤ n := by simpa using hn
      simp only [replaceLoop]
      split
      · next hs =>
        obtain ⟨r, hr⟩ := (startsWith_iff _ _).1 hs
        simp only [List.cons_append, List.nil_append, List.cons.injEq] at hr
        obtain ⟨rfl, rfl⟩ := hr
        have hr : r.length ≤ n := by
          simp only [List.length_cons] at hcs
          omega
        simp [List.count_cons, ih r hr]
      · simp [List.count_cons, ih cs hcs]

/-! ## Facts about the order and the sort -/

theorem stringLess_iff_lt (a b : List Char) : stringLess a b = true ↔ a < b := by
  induction a generalizing b with
  | nil =>
    cases b with
    | nil => simp [stringLess]
    | cons y ys => simpa [stringLess] using List.Lex.nil
  | cons x xs ih =>
    cases b with
    | nil => simp [stringLess]
    | cons y ys =>
      simp only [stringLess, Bool.or_eq_true, decide_eq_true_eq, Bool.and_eq_true,
        beq_iff_eq, ih]
      constructor
      · rintro (h | ⟨rfl, h⟩)
        · exact List.Lex.rel h
        · exact List.Lex.cons h
      · intro h
        cases h with
        | rel h => exact Or.inl h
        | cons h => exact Or.inr ⟨rfl, h⟩

theorem stringLess_irrefl (a : List Char) : stringLess a a = false := by
  induction a with
  | nil => rfl
  | cons c cs ih => simp [stringLess, ih]

theorem stringLess_trans (x y z : List Char) (h1 : stringLess x y = true)
    (h2 : stringLess y z = true) : stringLess x z = true := by
  induction x generalizing y z with
  | nil =>
    cases y with
    | nil => simp [stringLess] at h1
    | cons b bs =>
      cases z with
      | nil => simp [stringLess] at h2
      | cons c cs => simp [stringLess]
  | cons a as ih =>
    cases y with
    | nil => simp [stringLess] at h1
    | cons b bs =>
      cases z with
      | nil => simp [stringLess] at h2
      | cons c cs =>
        simp only [stringLess, Bool.or_eq_true, decide_eq_true_eq, Bool.and_eq_true,
          beq_iff_eq] at h1 h2 ⊢
        rcases h1 with h1 | ⟨rfl, h1⟩
        · rcases h2 with h2 | ⟨rfl, h2⟩
          · exact Or.inl (lt_trans h1 h2)
          · exact Or.inl h1
        · rcases h2 with h2 | ⟨rfl, h2⟩
          · exact Or.inl h2
          · exact Or.inr ⟨rfl, ih _ _ h1 h2⟩

theorem stringLess_trichotomy (x y : List Char) :
    stringLess x y = true ∨ x = y ∨ stringLess y x = true := by
  induction x generalizing y with
  | nil =>
    cases y with
    | nil => exact Or.inr (Or.inl rfl)
    | cons b bs => exact Or.inl (by simp [stringLess])
  | cons a as ih =>
    cases y with
    | nil => exact Or.inr (Or.inr (by simp [stringLess]))
    | cons b bs =>
      simp only [stringLess, Bool.or_eq_true, decide_eq_true_eq, Bool.and_eq_true,
        beq_iff_eq, List.cons.injEq]
      rcases lt_trichotomy a b with h | rfl | h
      · exact Or.inl (Or.inl h)
      · rcases ih bs with h | rfl | h
        · exact Or.inl (Or.inr ⟨rfl, h⟩)
        · exact Or.inr (Or.inl ⟨rfl, rfl⟩)
        · exact Or.inr (Or.inr (Or.inr ⟨rfl, h⟩))
      · exact Or.inr (Or.inr (Or.inl h))

theorem stringLess_asymm (x y : List Char) (h : stringLess x y = true) :
    stringLess y x = false := by
  cases h2 : stringLess y x with
  | false => rfl
  | true =>
    have := stringLess_trans x y x h h2
    rw [stringLess_irrefl] at this
    cases this

theorem stringLess_negtrans (x y z : List Char) (h1 : stringLess x y = false)
    (h2 : stringLess y z = false) : stringLess x z = false := by
  cases h : stringLess x z with
  | false => rfl
  | true =>
    exfalso
    rcases stringLess_trichotomy x y with h3 | h3 | h3
    · rw [h1] at h3
      cases h3
    · subst h3
      rw [h2] at h
      cases h
    · rcases stringLess_trichotomy y z with h4 | h4 | h4
      · rw [h2] at h4
        cases h4
      · subst h4
        have := stringLess_asymm _ _ h
        rw [h3] at this
        cases this
      · have h5 := stringLess_trans _ _ _ h4 h3
        have := stringLess_asymm _ _ h
        rw [h5] at this
        cases this

theorem lessByID_ok : LessOk lessByID :=
  ⟨fun x => stringLess_irrefl x.ID,
    fun x y z => stringLess_trans x.ID y.ID z.ID,
    fun x y z => stringLess_negtrans x.ID y.ID z.ID⟩

theorem stableSort_contract {α : Type} :
    SliceContract (stableSort : (α → α → Bool) → List α → List α) := by
  intro less hless l
  obtain ⟨hirr, htr, hneg⟩ := hless
  have hasym : ∀ x y, less x y = true → less y x = false := by
    intro x y h
    cases h2 : less y x with
    | false => rfl
    | true =>
      have := htr x y x h h2
      rw [hirr] at this
      cases this
  haveI : IsTotal α (fun x y => less y x = false) :=
    ⟨fun a b => by
      cases h : less b a with
      | false => exact Or.inl rfl
      | true => exact Or.inr (hasym _ _ h)⟩
  haveI : IsTrans α (fun x y => less y x = false) :=
    ⟨fun a b c h1 h2 => hneg c b a h2 h1⟩
  exact ⟨List.perm_insertionSort _ l, List.sorted_insertionSort _ l⟩

theorem sortsSlice_iff_contract {α : Type} (sortSlice : (α → α → Bool) → List α → List α) :
    SortsSlice sortSlice ↔ SliceContract sortSlice := by
  constructor
  · intro h less hless l
    obtain ⟨hp, hs⟩ := h less hless l
    haveI : IsTrans α (fun x y => less y x = false) :=
      ⟨fun a b c h1 h2 => hless.2.2 c b a h2 h1⟩
    exact ⟨hp, List.chain'_iff_pairwise.1 hs⟩
  · intro h less hless l
    obtain ⟨hp, hs⟩ := h less hless l
    exact ⟨hp, List.Pairwise.chain' hs⟩

theorem reversingSort_contract {α : Type} :
    SliceContract (reversingSort : (α → α → Bool) → List α → List α) := by
  intro less hless l
  obtain ⟨hp, hs⟩ := stableSort_contract less hless l.reverse
  exact ⟨hp.trans (List.reverse_perm l), hs⟩

theorem sorted_perm_unique (l1 l2 : List QuestionAnswer) (hp : l1.Perm l2)
    (h1 : l1.Pairwise (fun x y => lessByID y x = false))
    (h2 : l2.Pairwise (fun x y => lessByID y x = false))
    (hn : (l2.map (fun r => r.ID)).Nodup) : l1 = l2 := by
  have strict : ∀ l : List QuestionAnswer, l.Pairwise (fun x y => lessByID y x = false) →
      (l.map (fun r => r.ID)).Nodup → l.Pairwise (fun x y => lessByID x y = true) := by
    intro l hs hd
    have hd2 : l.Pairwise (fun x y => x.ID ≠ y.ID) := by
      unfold List.Nodup at hd
      rwa [List.pairwise_map] at hd
    refine (hs.and hd2).imp ?_
    rintro x y ⟨hxy, hne⟩
    rcases stringLess_trichotomy x.ID y.ID with h | h | h
    · exact h
    · exact absurd h hne
    · unfold lessByID at hxy
      rw [hxy] at h
      cases h
  haveI : IsAntisymm QuestionAnswer (fun x y => lessByID x y = true) :=
    ⟨fun a b hab hba => by
      have := stringLess_asymm _ _ hab
      unfold lessByID at hba
      rw [hba] at this
      cases this⟩
  have hn1 : (l1.map (fun r => r.ID)).Nodup := ((hp.map _).nodup_iff).2 hn
  exact List.eq_of_perm_of_sorted hp (strict l1 h1 hn1) (strict l2 h2 hn)

/-! ## Facts about the two loops of `getAnswer` -/

theorem indexSlice_of_valid {α : Type} (xs : List α) (i : Int)
    (h : 0 ≤ i ∧ i < xs.length) : ∃ x, indexSlice xs i = some x ∧ xs[i.toNat]? = some x := by
  have hlt : i.toNat < xs.length := by omega
  refine ⟨xs[i.toNat], ?_, ?_⟩
  · simp [indexSlice, h.1, hlt]
  · simp [hlt]

theorem indexSlice_of_invalid {α : Type} (xs : List α) (i : Int)
    (h : ¬ (0 ≤ i ∧ i < xs.length)) : indexSlice xs i = none := by
  unfold indexSlice
  split
  · next h0 =>
    have : xs.length ≤ i.toNat := by omega
    simp [this]
  · rfl

theorem buildQaList_of_valid (qs : List Question) (acc : List QuestionAnswer)
    (h : ∀ q ∈ qs, 0 ≤ q.Structure.Answer ∧ q.Structure.Answer < q.Structure.Options.length) :
    buildQaList qs acc = some (acc ++ qs.map recordOf) := by
  induction qs generalizing acc with
  | nil => simp [buildQaList]
  | cons q qs ih =>
    obtain ⟨x, hx, hx2⟩ := indexSlice_of_valid _ _ (h q (List.mem_cons_self _ _))
    simp only [buildQaList, hx]
    rw [ih _ (fun q hq => h q (List.mem_cons_of_mem _ hq))]
    simp [recordOf, hx2]

theorem buildQaList_of_invalid (qs : List Question) (acc : List QuestionAnswer)
    (h : ∃ q ∈ qs, ¬ (0 ≤ q.Structure.Answer ∧ q.Structure.Answer < q.Structure.Options.length)) :
    buildQaList qs acc = none := by
  induction qs generalizing acc with
  | nil => simp at h
  | cons q qs ih =>
    simp only [buildQaList]
    split
    · rfl
    · next opt hopt =>
      obtain ⟨q2, hq2, hbad⟩ := h
      rcases List.mem_cons.1 hq2 with rfl | hmem
      · rw [indexSlice_of_invalid _ _ hbad] at hopt
        cases hopt
      · exact ih _ ⟨q2, hmem, hbad⟩

theorem buildQaList_length (qs : List Question) (acc l : List QuestionAnswer)
    (h : buildQaList qs acc = some l) : l.length = acc.length + qs.length := by
  induction qs generalizing acc with
  | nil =>
    simp only [buildQaList, Option.some.injEq] at h
    simp [h]
  | cons q qs ih =>
    simp only [buildQaList] at h
    split at h
    · cases h
    · rw [ih _ h]
      simp only [List.length_append, List.length_cons, List.length_nil]
      omega

theorem writeEntries_eq (l : List QuestionAnswer) (i : Nat) (acc : List Char) :
    writeEntries l i acc = acc ++ blocksFrom i l := by
  induction l generalizing i acc with
  | nil => simp [writeEntries, blocksFrom]
  | cons r rs ih => simp [writeEntries, blocksFrom, ih]

theorem getAnswer_of_decoded (w : World)
    (sortSlice : (QuestionAnswer → QuestionAnswer → Bool) →
      List QuestionAnswer → List QuestionAnswer)
    (id : List Char) (resp : Response) (body : List UInt8) (data : Quiz)
    (hget : w.httpGet ("https://quizizz.com/quiz/".toList ++ id) = .ok resp)
    (hbody : resp.Body = (body, none)) (hdec : w.unmarshalQuiz body = .ok data) :
    getAnswer w sortSlice id =
      ([.get ("https://quizizz.com/quiz/".toList ++ id)], getAnswerDecoded sortSlice data) := by
  simp only [getAnswer, hget, hbody, hdec]

theorem breakBeforeTagEnd_sound (b c : List Char) (hb : '>' ∉ b)
    (h : breakBeforeTagEnd (b ++ '>' :: c) = false) : '\n' ∉ b := by
  induction b with
  | nil => simp
  | cons x b ih =>
    simp only [List.mem_cons, not_or] at hb
    have hx : ¬ x = '>' := fun e => hb.1 e.symm
    simp only [List.cons_append, breakBeforeTagEnd, hx, if_false, Bool.or_eq_false_iff,
      Bool.and_eq_false_imp, beq_iff_eq] at h
    simp only [List.mem_cons, not_or]
    refine ⟨?_, ih hb.2 h.2⟩
    intro e
    have := h.1 e.symm
    simp at this

theorem noBreakInTagCheck_sound (s : List Char) (h : noBreakInTagCheck s = true) :
    NoBreakInTag s := by
  induction s with
  | nil =>
    intro a b c e
    simp at e
  | cons x s ih =>
    simp only [noBreakInTagCheck, Bool.and_eq_true, Bool.or_eq_true, bne_iff_ne,
      Bool.not_eq_true'] at h
    intro a b c e hb
    cases a with
    | nil =>
      simp only [List.nil_append, List.cons.injEq] at e
      obtain ⟨rfl, rfl⟩ := e
      rcases h.1 with h1 | h1
      · exact absurd rfl h1
      · exact breakBeforeTagEnd_sound b c hb h1
    | cons y a =>
      simp only [List.cons_append, List.cons.injEq] at e
      exact ih h.2 a b c e.2 hb

theorem buildQaList_eq_some (qs : List Question) (acc l : List QuestionAnswer)
    (h : buildQaList qs acc = some l) :
    l = acc ++ qs.map recordOf ∧
    ∀ q ∈ qs, 0 ≤ q.Structure.Answer ∧ q.Structure.Answer < q.Structure.Options.length := by
  have hv : ∀ q ∈ qs,
      0 ≤ q.Structure.Answer ∧ q.Structure.Answer < q.Structure.Options.length := by
    intro q hq
    by_contra hbad
    rw [buildQaList_of_invalid qs acc ⟨q, hq, hbad⟩] at h
    cases h
  rw [buildQaList_of_valid qs acc hv] at h
  exact ⟨(Option.some.inj h).symm, hv⟩

/-! ## Facts about the deletion of `&nbsp;` -/

theorem occursCheck_iff (pat s : List Char) : occursCheck pat s = true ↔ Occurs pat s := by
  induction s with
  | nil =>
    simp only [occursCheck, startsWith_iff, Occurs]
    constructor
    · rintro ⟨r, hr⟩
      exact ⟨[], r, by simpa using hr⟩
    · rintro ⟨a, c, e⟩
      have h1 := congrArg List.length e
      simp only [List.length_nil, List.length_append] at h1
      have ha : a = [] := List.length_eq_zero.1 (by omega)
      subst ha
      exact ⟨c, by simpa using e⟩
  | cons x s ih =>
    simp only [occursCheck, Bool.or_eq_true, ih, startsWith_iff, Occurs]
    constructor
    · rintro (⟨r, hr⟩ | ⟨a, c, e⟩)
      · exact ⟨[], r, by simpa using hr⟩
      · exact ⟨x :: a, c, by simp [e]⟩
    · rintro ⟨a, c, e⟩
      cases a with
      | nil => exact Or.inl ⟨c, by simpa using e⟩
      | cons y a =>
        simp only [List.cons_append, List.cons.injEq] at e
        exact Or.inr ⟨a, c, by simpa using e.2⟩

theorem deleteEntities_nil : ReplaceAll [] ['&', 'n', 'b', 's', 'p', ';'] [] = [] := rfl

theorem deleteEntities_entity (r : List Char) :
    ReplaceAll ('&' :: 'n' :: 'b' :: 's' :: 'p' :: ';' :: r) ['&', 'n', 'b', 's', 'p', ';'] [] =
      ReplaceAll r ['&', 'n', 'b', 's', 'p', ';'] [] := by
  rw [ReplaceAll_cons]
  simp [startsWith]

theorem deleteEntities_other (c : Char) (cs : List Char) (hc : c ≠ '&') :
    ReplaceAll (c :: cs) ['&', 'n', 'b', 's', 'p', ';'] [] =
      c :: ReplaceAll cs ['&', 'n', 'b', 's', 'p', ';'] [] := by
  rw [ReplaceAll_cons]
  have : startsWith ['&', 'n', 'b', 's', 'p', ';'] (c :: cs) = false := by
    simp [startsWith, Ne.symm hc]
  simp [this]

theorem deleteEntities_run (k : Nat) (r : List Char) :
    ReplaceAll (entityRun k ++ r) ['&', 'n', 'b', 's', 'p', ';'] [] =
      ReplaceAll r ['&', 'n', 'b', 's', 'p', ';'] [] := by
  induction k with
  | zero => simp [entityRun]
  | succ k ih =>
    simp only [entityRun, nbsp_toList, List.cons_append, List.nil_append, List.append_assoc]
    rw [deleteEntities_entity, ih]

/-- A character other than `&` at the head of the text after the deletion stood in the
text before it, behind a run of entities. -/
theorem deleteEntities_head (n : Nat) (cs : List Char) (hn : cs.length ≤ n) (z : Char)
    (rest : List Char) (hz : z ≠ '&')
    (h : ReplaceAll cs ['&', 'n', 'b', 's', 'p', ';'] [] = z :: rest) :
    ∃ k cs1, cs = entityRun k ++ z :: cs1 ∧
      ReplaceAll cs1 ['&', 'n', 'b', 's', 'p', ';'] [] = rest := by
  induction n generalizing cs with
  | zero =>
    have : cs = [] := List.length_eq_zero.1 (Nat.le_zero.1 hn)
    subst this
    rw [deleteEntities_nil] at h
    cases h
  | succ n ih =>
    cases cs with
    | nil =>
      rw [deleteEntities_nil] at h
      cases h
    | cons c cs0 =>
      rw [ReplaceAll_cons] at h
      split at h
      · next hs =>
        obtain ⟨r, hr⟩ := (startsWith_iff _ _).1 hs
        rw [hr] at h hn ⊢
        simp only [List.cons_append, List.nil_append, List.length_cons, List.drop_succ_cons,
          List.drop_zero] at h hn
        obtain ⟨k, cs1, e, hd⟩ := ih r (by omega) h
        exact ⟨k + 1, cs1, by simp [entityRun, nbsp_toList, e], hd⟩
      · simp only [List.cons.injEq] at h
        obtain ⟨rfl, hd⟩ := h
        exact ⟨0, cs0, by simp [entityRun], hd⟩

theorem joinedEntity_cons (c : Char) (t : List Char) (h : JoinedEntity t) :
    JoinedEntity (c :: t) := by
  obtain ⟨a, c', k1, k2, k3, k4, k5, hk, e⟩ := h
  exact ⟨c :: a, c', k1, k2, k3, k4, k5, hk, by simp [e]⟩

theorem joinedEntity_append (p t : List Char) (h : JoinedEntity t) :
    JoinedEntity (p ++ t) := by
  induction p with
  | nil => simpa using h
  | cons c p ih => exact joinedEntity_cons c _ ih

theorem joinedEntity_of_occurs (n : Nat) (t : List Char) (hn : t.length ≤ n)
    (h : Occurs ['&', 'n', 'b', 's', 'p', ';'] (ReplaceAll t ['&', 'n', 'b', 's', 'p', ';'] [])) :
    JoinedEntity t := by
  induction n generalizing t with
  | zero =>
    have : t = [] := List.length_eq_zero.1 (Nat.le_zero.1 hn)
    subst this
    obtain ⟨x, y, e⟩ := h
    rw [deleteEntities_nil] at e
    have := congrArg List.length e
    simp only [List.length_nil, List.length_append, List.length_cons] at this
    omega
  | succ n ih =>
    cases t with
    | nil =>
      obtain ⟨x, y, e⟩ := h
      rw [deleteEntities_nil] at e
      have := congrArg List.length e
      simp only [List.length_nil, List.length_append, List.length_cons] at this
      omega
    | cons c cs =>
      by_cases hs : startsWith ['&', 'n', 'b', 's', 'p', ';'] (c :: cs) = true
      · obtain ⟨r, hr⟩ := (startsWith_iff _ _).1 hs
        rw [hr] at h hn ⊢
        simp only [List.cons_append, List.nil_append, List.length_cons] at h hn
        rw [deleteEntities_entity] at h
        have := ih r (by omega) h
        exact joinedEntity_append ['&', 'n', 'b', 's', 'p', ';'] r this
      · obtain ⟨x, y, e⟩ := h
        rw [ReplaceAll_cons, if_neg hs] at e
        cases x with
        | cons x0 x =>
          simp only [List.cons_append, List.cons.injEq] at e
          have hcs : cs.length ≤ n := by simpa using hn
          exact joinedEntity_cons c cs (ih cs hcs ⟨x, y, by simpa using e.2⟩)
        | nil =>
          simp only [List.nil_append, List.cons_append, List.cons.injEq] at e
          obtain ⟨rfl, e⟩ := e
          obtain ⟨k1, t1, e1, d1⟩ := deleteEntities_head _ cs (Nat.le_refl _) 'n' _ (by decide) e
          obtain ⟨k2, t2, e2, d2⟩ := deleteEntities_head _ t1 (Nat.le_refl _) 'b' _ (by decide) d1
          obtain ⟨k3, t3, e3, d3⟩ := deleteEntities_head _ t2 (Nat.le_refl _) 's' _ (by decide) d2
          obtain ⟨k4, t4, e4, d4⟩ := deleteEntities_head _ t3 (Nat.le_refl _) 'p' _ (by decide) d3
          obtain ⟨k5, t5, e5, -⟩ := deleteEntities_head _ t4 (Nat.le_refl _) ';' _ (by decide) d4
          subst e1 e2 e3 e4 e5
          refine ⟨[], t5, k1, k2, k3, k4, k5, ?_, by simp⟩
          rcases Nat.eq_zero_or_pos (k1 + k2 + k3 + k4 + k5) with h0 | h0
          · exfalso
            apply hs
            have z1 : k1 = 0 := by omega
            have z2 : k2 = 0 := by omega
            have z3 : k3 = 0 := by omega
            have z4 : k4 = 0 := by omega
            have z5 : k5 = 0 := by omega
            subst z1 z2 z3 z4 z5
            simp [entityRun, startsWith]
          · exact h0

theorem entity_of_startsWith_append (a w : List Char) (ha : a ≠ [])
    (h : startsWith ['&', 'n', 'b', 's', 'p', ';'] (a ++ '&' :: w) = true) :
    ∃ a2, a = ['&', 'n', 'b', 's', 'p', ';'] ++ a2 := by
  obtain ⟨r, hr⟩ := (startsWith_iff _ _).1 h
  rcases List.append_eq_append_iff.1 hr with ⟨a1, e1, e2⟩ | ⟨c1, e1, -⟩
  · cases a1 with
    | nil => exact ⟨[], by simpa using e1.symm⟩
    | cons x a1 =>
      exfalso
      simp only [List.cons_append, List.cons.injEq] at e2
      obtain ⟨rfl, -⟩ := e2
      cases a with
      | nil => exact ha rfl
      | cons y a0 =>
        simp only [List.cons_append, List.cons.injEq] at e1
        have hmem : '&' ∈ ['n', 'b', 's', 'p', ';'] := by
          rw [e1.2]
          simp
        exact absurd hmem (by decide)
  · exact ⟨c1, e1⟩

theorem deleteEntities_append_amp (n : Nat) (a : List Char) (hn : a.length ≤ n)
    (w : List Char) :
    ∃ p, ReplaceAll (a ++ '&' :: w) ['&', 'n', 'b', 's', 'p', ';'] [] =
      p ++ ReplaceAll ('&' :: w) ['&', 'n', 'b', 's', 'p', ';'] [] := by
  induction n generalizing a with
  | zero =>
    have : a = [] := List.length_eq_zero.1 (Nat.le_zero.1 hn)
    subst this
    exact ⟨[], rfl⟩
  | succ n ih =>
    cases a with
    | nil => exact ⟨[], rfl⟩
    | cons c a1 =>
      by_cases hs : startsWith ['&', 'n', 'b', 's', 'p', ';'] ((c :: a1) ++ '&' :: w) = true
      · obtain ⟨a2, e⟩ := entity_of_startsWith_append (c :: a1) w (by simp) hs
        rw [e] at hn ⊢
        simp only [List.cons_append, List.nil_append, List.length_cons] at hn ⊢
        rw [deleteEntities_entity]
        exact ih a2 (by omega)
      · have hcs : a1.length ≤ n := by simpa using hn
        obtain ⟨p, hp⟩ := ih a1 hcs
        refine ⟨c :: p, ?_⟩
        rw [List.cons_append] at hs
        rw [List.cons_append, ReplaceAll_cons, if_neg hs, hp]
        rfl

theorem startsWith_run (z : Char) (pat : List Char) (k : Nat) (r : List Char) (hz : z ≠ '&')
    (h : startsWith (z :: pat) (entityRun k ++ z :: r) = true) :
    k = 0 ∧ startsWith pat r = true := by
  cases k with
  | zero => simpa [entityRun, startsWith] using h
  | succ k =>
    exfalso
    simp [entityRun, nbsp_toList, startsWith, hz] at h

theorem deleteEntities_joined (k1 k2 k3 k4 k5 : Nat) (c : List Char)
    (hk : 0 < k1 + k2 + k3 + k4 + k5) :
    ReplaceAll ('&' :: (entityRun k1 ++ 'n' :: (entityRun k2 ++ 'b' :: (entityRun k3 ++
        's' :: (entityRun k4 ++ 'p' :: (entityRun k5 ++ ';' :: c))))))
      ['&', 'n', 'b', 's', 'p', ';'] [] =
    ['&', 'n', 'b', 's', 'p', ';'] ++ ReplaceAll c ['&', 'n', 'b', 's', 'p', ';'] [] := by
  have hs : ¬ startsWith ['&', 'n', 'b', 's', 'p', ';']
      ('&' :: (entityRun k1 ++ 'n' :: (entityRun k2 ++ 'b' :: (entityRun k3 ++
        's' :: (entityRun k4 ++ 'p' :: (entityRun k5 ++ ';' :: c)))))) = true := by
    intro h
    simp only [startsWith, beq_self_eq_true, Bool.true_and] at h
    obtain ⟨z1, h⟩ := startsWith_run 'n' _ k1 _ (by decide) h
    obtain ⟨z2, h⟩ := startsWith_run 'b' _ k2 _ (by decide) h
    obtain ⟨z3, h⟩ := startsWith_run 's' _ k3 _ (by decide) h
    obtain ⟨z4, h⟩ := startsWith_run 'p' _ k4 _ (by decide) h
    obtain ⟨z5, -⟩ := startsWith_run ';' _ k5 _ (by decide) h
    omega
  rw [ReplaceAll_cons, if_neg hs, deleteEntities_run, deleteEntities_other _ _ (by decide),
    deleteEntities_run, deleteEntities_other _ _ (by decide),
    deleteEntities_run, deleteEntities_other _ _ (by decide),
    deleteEntities_run, deleteEntities_other _ _ (by decide),
    deleteEntities_run, deleteEntities_other _ _ (by decide)]
  rfl

theorem occurs_of_joinedEntity (t : List Char) (h : JoinedEntity t) :
    Occurs ['&', 'n', 'b', 's', 'p', ';'] (ReplaceAll t ['&', 'n', 'b', 's', 'p', ';'] []) := by
  obtain ⟨a, c, k1, k2, k3, k4, k5, hk, rfl⟩ := h
  obtain ⟨p, hp⟩ := deleteEntities_append_amp _ a (Nat.le_refl _)
    (entityRun k1 ++ 'n' :: (entityRun k2 ++ 'b' :: (entityRun k3 ++
      's' :: (entityRun k4 ++ 'p' :: (entityRun k5 ++ ';' :: c)))))
  rw [hp, deleteEntities_joined k1 k2 k3 k4 k5 c hk]
  exact ⟨p, ReplaceAll c ['&', 'n', 'b', 's', 'p', ';'] [], by simp⟩

/-! ## The claims -/

/-- C1: when the response decodes to a document whose answer indices are all valid, the
string `getAnswer` returns is the concatenation of the blocks
"k. **question**\n**Answer:** `answer`\n\n", `k` counting from 1, over a rearrangement of
the question records (identifier, cleaned query text, cleaned text of the option at the
answer index) that is in ascending order of identifier; a document without questions
gives the empty string; the two-entry document of the end-to-end scenario gives the text
stated there. -/
theorem getAnswer_formats_sorted_records :
    (∀ (w : World) sortSlice, SliceContract sortSlice →
      ∀ (id : List Char) (resp : Response) (body : List UInt8) (data : Quiz),
      w.httpGet ("https://quizizz.com/quiz/".toList ++ id) = .ok resp →
      resp.Body = (body, none) → w.unmarshalQuiz body = .ok data → ValidIndices data →
      ∃ recs : List QuestionAnswer,
        recs.Perm (data.Data.Quiz.Info.Questions.map recordOf) ∧
        recs.Pairwise (fun x y => stringLess y.ID x.ID = false) ∧
        getAnswer w sortSlice id =
          ([.get ("https://quizizz.com/quiz/".toList ++ id)], some (blocksFrom 0 recs))) ∧
    (∀ (w : World) sortSlice, SliceContract sortSlice →
      ∀ (id : List Char) (resp : Response) (body : List UInt8) (data : Quiz),
      w.httpGet ("https://quizizz.com/quiz/".toList ++ id) = .ok resp →
      resp.Body = (body, none) → w.unmarshalQuiz body = .ok data →
      data.Data.Quiz.Info.Questions = [] →
      getAnswer w sortSlice id = ([.get ("https://quizizz.com/quiz/".toList ++ id)], some [])) ∧
    (∀ (w : World) sortSlice, SliceContract sortSlice →
      ∀ (id : List Char) (resp : Response) (body : List UInt8),
      w.httpGet ("https://quizizz.com/quiz/".toList ++ id) = .ok resp →
      resp.Body = (body, none) → w.unmarshalQuiz body = .ok specDocument →
      getAnswer w sortSlice id = ([.get ("https://quizizz.com/quiz/".toList ++ id)], some
        "1. **1+2=?**\n**Answer:** `4`\n\n2. **Capital of France?**\n**Answer:** `Paris`\n\n".toList)) := by
  have decoded : ∀ sortSlice, SliceContract sortSlice → ∀ data : Quiz, ValidIndices data →
      ∃ recs : List QuestionAnswer,
        recs.Perm (data.Data.Quiz.Info.Questions.map recordOf) ∧
        recs.Pairwise (fun x y => stringLess y.ID x.ID = false) ∧
        getAnswerDecoded sortSlice data = some (blocksFrom 0 recs) := by
    intro sortSlice hc data hv
    obtain ⟨hp, hs⟩ := hc lessByID lessByID_ok (data.Data.Quiz.Info.Questions.map recordOf)
    refine ⟨_, hp, hs, ?_⟩
    unfold getAnswerDecoded sortedQaList
    rw [buildQaList_of_valid _ _ hv]
    simp [writeEntries_eq]
  refine ⟨?_, ?_, ?_⟩
  · intro w sortSlice hc id resp body data hget hbody hdec hv
    obtain ⟨recs, hp, hs, he⟩ := decoded sortSlice hc data hv
    exact ⟨recs, hp, hs, by simp only [getAnswer, hget, hbody, hdec, he]⟩
  · intro w sortSlice hc id resp body data hget hbody hdec hq
    obtain ⟨recs, hp, -, he⟩ := decoded sortSlice hc data (by
      intro q hmem
      rw [hq] at hmem
      cases hmem)
    rw [hq] at hp
    simp only [getAnswer, hget, hbody, hdec, he, hp.eq_nil]
    rfl
  · intro w sortSlice hc id resp body hget hbody hdec
    obtain ⟨recs, hp, hs, he⟩ := decoded sortSlice hc specDocument (by
      unfold ValidIndices
      decide)
    have hu : recs = stableSort lessByID (specDocument.Data.Quiz.Info.Questions.map recordOf) := by
      obtain ⟨hp2, hs2⟩ := stableSort_contract lessByID lessByID_ok
        (specDocument.Data.Quiz.Info.Questions.map recordOf)
      exact sorted_perm_unique _ _ (hp.trans hp2.symm) hs hs2
        (((hp2.map _).nodup_iff).2 (by decide))
    have ht : blocksFrom 0
        (stableSort lessByID (specDocument.Data.Quiz.Info.Questions.map recordOf)) =
        "1. **1+2=?**\n**Answer:** `4`\n\n2. **Capital of France?**\n**Answer:** `Paris`\n\n".toList := by
      decide
    simp only [getAnswer, hget, hbody, hdec, he, hu, ht]

/-- C1, at a world whose quiz platform answers with the two-entry document of the
end-to-end scenario, sorted by insertion. -/
theorem getAnswer_formats_sorted_records_witness :
    SliceContract (stableSort : (QuestionAnswer → QuestionAnswer → Bool) →
      List QuestionAnswer → List QuestionAnswer) ∧
    specWorld.httpGet ("https://quizizz.com/quiz/".toList ++ "q1".toList) = .ok sampleResponse ∧
    sampleResponse.Body = ([123, 125], none) ∧
    specWorld.unmarshalQuiz [123, 125] = .ok specDocument ∧
    ValidIndices specDocument ∧
    (∃ recs : List QuestionAnswer,
      recs.Perm (specDocument.Data.Quiz.Info.Questions.map recordOf) ∧
      recs.Pairwise (fun x y => stringLess y.ID x.ID = false) ∧
      getAnswer specWorld stableSort "q1".toList =
        ([.get ("https://quizizz.com/quiz/".toList ++ "q1".toList)],
          some (blocksFrom 0 recs))) ∧
    getAnswer specWorld stableSort "q1".toList =
      ([.get ("https://quizizz.com/quiz/".toList ++ "q1".toList)], some
        "1. **1+2=?**\n**Answer:** `4`\n\n2. **Capital of France?**\n**Answer:** `Paris`\n\n".toList) :=
  ⟨stableSort_contract, rfl, rfl, rfl, by unfold ValidIndices; decide,
    getAnswer_formats_sorted_records.1 specWorld stableSort stableSort_contract "q1".toList
      sampleResponse [123, 125] specDocument rfl rfl rfl (by unfold ValidIndices; decide),
    rfl⟩

/-- C2: when some question's answer index is negative or not below the number of its
options, `getAnswer` panics at the option lookup and returns no string, whatever the
other questions are; the run of `main` ends in that panic after the one GET request,
nothing is posted. -/
theorem getAnswer_panics_on_bad_index
    (sortSlice : (QuestionAnswer → QuestionAnswer → Bool) →
      List QuestionAnswer → List QuestionAnswer)
    (data : Quiz)
    (h : ∃ q ∈ data.Data.Quiz.Info.Questions,
      ¬ (0 ≤ q.Structure.Answer ∧ q.Structure.Answer < q.Structure.Options.length)) :
    getAnswerDecoded sortSlice data = none ∧
    ∀ (w : World) (config : Config) (resp : Response) (body : List UInt8),
      loadConfig w "config.json".toList = .ok config →
      w.httpGet ("https://quizizz.com/quiz/".toList ++ config.QuizID) = .ok resp →
      resp.Body = (body, none) → w.unmarshalQuiz body = .ok data →
      getAnswer w sortSlice config.QuizID =
        ([.get ("https://quizizz.com/quiz/".toList ++ config.QuizID)], none) ∧
      main w sortSlice =
        ([.get ("https://quizizz.com/quiz/".toList ++ config.QuizID)], .panicked) := by
  have hd : getAnswerDecoded sortSlice data = none := by
    unfold getAnswerDecoded sortedQaList
    rw [buildQaList_of_invalid _ _ h]
  refine ⟨hd, ?_⟩
  intro w config resp body hcfg hget hbody hdec
  have hg := getAnswer_of_decoded w sortSlice config.QuizID resp body data hget hbody hdec
  rw [hd] at hg
  refine ⟨hg, ?_⟩
  simp only [main, hcfg, hg]

/-- C2, at a document whose only question has two options and answer index 2. -/
theorem getAnswer_panics_on_bad_index_witness :
    (∃ q ∈ badIndexDocument.Data.Quiz.Info.Questions,
      ¬ (0 ≤ q.Structure.Answer ∧ q.Structure.Answer < q.Structure.Options.length)) ∧
    getAnswerDecoded stableSort badIndexDocument = none ∧
    main badIndexWorld stableSort = ([.get "https://quizizz.com/quiz/q1".toList], .panicked) :=
  have hbad : ∃ q ∈ badIndexDocument.Data.Quiz.Info.Questions,
      ¬ (0 ≤ q.Structure.Answer ∧ q.Structure.Answer < q.Structure.Options.length) := by
    decide
  ⟨hbad, (getAnswer_panics_on_bad_index stableSort badIndexDocument hbad).1,
    ((getAnswer_panics_on_bad_index stableSort badIndexDocument hbad).2 badIndexWorld
      sampleConfig sampleResponse [123, 125] rfl rfl rfl rfl).2⟩

/-- C3: when the first loop of `getAnswer` has built its list from a document with N
question entries, that list has N records, and the list `getAnswer` goes on with after
`sort.Slice`, from which it writes the text it returns, has N records, is a rearrangement
of the list before the sort (every identifier is on as many records as questions carry
it, so records with the same identifier are all kept), and its identifiers are in
non-decreasing lexical order.  Of `sort.Slice` it is taken that it leaves a rearrangement
that `sort.SliceIsSorted` reports sorted. -/
theorem sort_keeps_records_in_id_order (w : World)
    (sortSlice : (QuestionAnswer → QuestionAnswer → Bool) →
      List QuestionAnswer → List QuestionAnswer)
    (hsort : SortsSlice sortSlice) (id : List Char) (resp : Response) (body : List UInt8)
    (data : Quiz) (qaList : List QuestionAnswer)
    (hget : w.httpGet ("https://quizizz.com/quiz/".toList ++ id) = .ok resp)
    (hbody : resp.Body = (body, none)) (hdec : w.unmarshalQuiz body = .ok data)
    (hb : buildQaList data.Data.Quiz.Info.Questions [] = some qaList) :
    qaList.length = data.Data.Quiz.Info.Questions.length ∧
    ∃ sorted : List QuestionAnswer,
      sortedQaList sortSlice data = some sorted ∧
      getAnswer w sortSlice id =
        ([.get ("https://quizizz.com/quiz/".toList ++ id)], some (writeEntries sorted 0 [])) ∧
      sorted.length = data.Data.Quiz.Info.Questions.length ∧
      sorted.Perm qaList ∧
      (∀ ident : List Char, sorted.countP (fun r => decide (r.ID = ident)) =
        data.Data.Quiz.Info.Questions.countP (fun q => decide (q.ID = ident))) ∧
      sorted.Pairwise (fun x y => x.ID ≤ y.ID) ∧
      sorted.Pairwise (fun x y => stringLess y.ID x.ID = false) := by
  obtain ⟨hl, -⟩ := buildQaList_eq_some _ _ _ hb
  have hq : qaList = data.Data.Quiz.Info.Questions.map recordOf := by simpa using hl
  have hlen : qaList.length = data.Data.Quiz.Info.Questions.length := by simp [hq]
  obtain ⟨hp, hs⟩ := (sortsSlice_iff_contract sortSlice).1 hsort lessByID lessByID_ok qaList
  refine ⟨hlen, sortSlice lessByID qaList, ?_, ?_, hp.length_eq.trans hlen, hp, ?_, ?_, hs⟩
  · unfold sortedQaList
    rw [hb]
  · rw [getAnswer_of_decoded w sortSlice id resp body data hget hbody hdec]
    unfold getAnswerDecoded sortedQaList
    rw [hb]
  · intro ident
    rw [hp.countP_eq, hq, List.countP_map]
    rfl
  · refine hs.imp ?_
    intro x y hxy
    refine not_lt.1 (fun hlt => ?_)
    have := (stringLess_iff_lt y.ID x.ID).2 hlt
    unfold lessByID at hxy
    rw [hxy] at this
    cases this

/-- C3, at a world whose quiz platform answers with the two-entry document of the
end-to-end scenario, sorted by insertion. -/
theorem sort_keeps_records_in_id_order_witness :
    SortsSlice (stableSort : (QuestionAnswer → QuestionAnswer → Bool) →
      List QuestionAnswer → List QuestionAnswer) ∧
    specWorld.httpGet ("https://quizizz.com/quiz/".toList ++ "q1".toList) = .ok sampleResponse ∧
    sampleResponse.Body = ([123, 125], none) ∧
    specWorld.unmarshalQuiz [123, 125] = .ok specDocument ∧
    buildQaList specDocument.Data.Quiz.Info.Questions [] =
      some (specDocument.Data.Quiz.Info.Questions.map recordOf) ∧
    sortedQaList stableSort specDocument = some
      [{ ID := "a".toList, Question := "1+2=?".toList, Answer := "4".toList, AnswerIndex := 1 },
        { ID := "b".toList, Question := "Capital of France?".toList, Answer := "Paris".toList,
          AnswerIndex := 0 }] ∧
    getAnswer specWorld stableSort "q1".toList =
      ([.get ("https://quizizz.com/quiz/".toList ++ "q1".toList)], some
        "1. **1+2=?**\n**Answer:** `4`\n\n2. **Capital of France?**\n**Answer:** `Paris`\n\n".toList) ∧
    ∃ sorted : List QuestionAnswer,
      sortedQaList stableSort specDocument = some sorted ∧
      getAnswer specWorld stableSort "q1".toList =
        ([.get ("https://quizizz.com/quiz/".toList ++ "q1".toList)],
          some (writeEntries sorted 0 [])) ∧
      sorted.length = specDocument.Data.Quiz.Info.Questions.length ∧
      sorted.Perm (specDocument.Data.Quiz.Info.Questions.map recordOf) ∧
      (∀ ident : List Char, sorted.countP (fun r => decide (r.ID = ident)) =
        specDocument.Data.Quiz.Info.Questions.countP (fun q => decide (q.ID = ident))) ∧
      sorted.Pairwise (fun x y => x.ID ≤ y.ID) ∧
      sorted.Pairwise (fun x y => stringLess y.ID x.ID = false) :=
  ⟨(sortsSlice_iff_contract stableSort).2 stableSort_contract, rfl, rfl, rfl, by decide,
    by decide, rfl,
    (sort_keeps_records_in_id_order specWorld stableSort
      ((sortsSlice_iff_contract stableSort).2 stableSort_contract) "q1".toList
      sampleResponse [123, 125] specDocument
      (specDocument.Data.Quiz.Info.Questions.map recordOf) rfl rfl rfl (by decide)).2⟩

/-- C4 as stated fails: a sort that meets everything `sort.Slice` promises returns the
twelve records with the identifier `b` of a thirteen-record list in another order than
they had. -/
theorem sort_stable_counterexample :
    SliceContract (reversingSort : (QuestionAnswer → QuestionAnswer → Bool) →
      List QuestionAnswer → List QuestionAnswer) ∧
    (reversingSort lessByID tiedRecords).filter (fun r => r.ID = "b".toList) ≠
      tiedRecords.filter (fun r => r.ID = "b".toList) :=
  ⟨reversingSort_contract, by decide⟩

/-- C4, amended: the records with any one identifier are the same before and after the
sort, in an order `sort.Slice` does not fix; when the identifiers of the list are
pairwise distinct the sorted list is fully determined, it is the list a stable sort
gives. -/
theorem sort_determined_for_distinct_ids
    (sortSlice : (QuestionAnswer → QuestionAnswer → Bool) →
      List QuestionAnswer → List QuestionAnswer)
    (hc : SliceContract sortSlice) (l : List QuestionAnswer) :
    (∀ id : List Char, ((sortSlice lessByID l).filter (fun r => r.ID = id)).Perm
      (l.filter (fun r => r.ID = id))) ∧
    ((l.map (fun r => r.ID)).Nodup → sortSlice lessByID l = stableSort lessByID l) := by
  obtain ⟨hp, hs⟩ := hc lessByID lessByID_ok l
  obtain ⟨hp2, hs2⟩ := stableSort_contract lessByID lessByID_ok l
  refine ⟨fun id => hp.filter _, fun hd => ?_⟩
  exact sorted_perm_unique _ _ (hp.trans hp2.symm) hs hs2 (((hp2.map _).nodup_iff).2 hd)

/-- C4 amended, at the records of the two-entry document and the tie-reversing sort. -/
theorem sort_determined_for_distinct_ids_witness :
    SliceContract (reversingSort : (QuestionAnswer → QuestionAnswer → Bool) →
      List QuestionAnswer → List QuestionAnswer) ∧
    ((specDocument.Data.Quiz.Info.Questions.map recordOf).map (fun r => r.ID)).Nodup ∧
    reversingSort lessByID (specDocument.Data.Quiz.Info.Questions.map recordOf) =
      stableSort lessByID (specDocument.Data.Quiz.Info.Questions.map recordOf) :=
  ⟨reversingSort_contract, by decide,
    (sort_determined_for_distinct_ids reversingSort reversingSort_contract
      (specDocument.Data.Quiz.Info.Questions.map recordOf)).2 (by decide)⟩

/-- C5 as stated fails: the quiz platform cannot be reached, `getAnswer` returns the
text "Error fetching data", and `main` hands it to `sendToDiscord`, which posts it. -/
theorem fetch_failure_still_notifies :
    FetchFails fetchDownWorld sampleConfig.QuizID ∧
    main fetchDownWorld stableSort =
      ([.get "https://quizizz.com/quiz/q1".toList,
        .println [.str "Error fetching data:".toList, .err "dial tcp: no route to host".toList],
        .post "https://discord.example/hook".toList "application/json".toList [123, 125],
        .println [.str "Message sent to Discord successfully!".toList]], .returned) ∧
    sendToDiscord fetchDownWorld sampleConfig.WebhookURL sampleConfig.WebhookName
        sampleConfig.ProfileURL "Error fetching data".toList =
      [.post "https://discord.example/hook".toList "application/json".toList [123, 125],
        .println [.str "Message sent to Discord successfully!".toList]] :=
  ⟨trivial, rfl, rfl⟩

/-- C5, amended: when the fetch stage fails, `getAnswer` prints the error and returns a
fixed text, "Error fetching data" for a failed request, "Error reading response body" for
a body that cannot be read, "Error unmarshaling JSON" for a body that cannot be decoded;
`main` does not end there: its run is the events of `getAnswer` followed by those of
`sendToDiscord` called with that text as the message, and `sendToDiscord` makes the
webhook POST whenever its payload encodes. -/
theorem fetch_failure_message_is_sent
    (sortSlice : (QuestionAnswer → QuestionAnswer → Bool) →
      List QuestionAnswer → List QuestionAnswer) (w : World) (config : Config)
    (hcfg : loadConfig w "config.json".toList = .ok config) :
    (∀ err : List Char,
      w.httpGet ("https://quizizz.com/quiz/".toList ++ config.QuizID) = .error err →
      getAnswer w sortSlice config.QuizID =
        ([.get ("https://quizizz.com/quiz/".toList ++ config.QuizID),
          .println [.str "Error fetching data:".toList, .err err]],
          some "Error fetching data".toList) ∧
      main w sortSlice =
        ([.get ("https://quizizz.com/quiz/".toList ++ config.QuizID),
          .println [.str "Error fetching data:".toList, .err err]] ++
          sendToDiscord w config.WebhookURL config.WebhookName config.ProfileURL
            "Error fetching data".toList, .returned)) ∧
    (∀ (resp : Response) (bytes : List UInt8) (err : List Char),
      w.httpGet ("https://quizizz.com/quiz/".toList ++ config.QuizID) = .ok resp →
      resp.Body = (bytes, some err) →
      getAnswer w sortSlice config.QuizID =
        ([.get ("https://quizizz.com/quiz/".toList ++ config.QuizID),
          .println [.str "Error reading response body:".toList, .err err]],
          some "Error reading response body".toList) ∧
      main w sortSlice =
        ([.get ("https://quizizz.com/quiz/".toList ++ config.QuizID),
          .println [.str "Error reading response body:".toList, .err err]] ++
          sendToDiscord w config.WebhookURL config.WebhookName config.ProfileURL
            "Error reading response body".toList, .returned)) ∧
    (∀ (resp : Response) (body : List UInt8) (err : List Char),
      w.httpGet ("https://quizizz.com/quiz/".toList ++ config.QuizID) = .ok resp →
      resp.Body = (body, none) → w.unmarshalQuiz body = .error err →
      getAnswer w sortSlice config.QuizID =
        ([.get ("https://quizizz.com/quiz/".toList ++ config.QuizID),
          .println [.str "Error unmarshaling JSON:".toList, .err err]],
          some "Error unmarshaling JSON".toList) ∧
      main w sortSlice =
        ([.get ("https://quizizz.com/quiz/".toList ++ config.QuizID),
          .println [.str "Error unmarshaling JSON:".toList, .err err]] ++
          sendToDiscord w config.WebhookURL config.WebhookName config.ProfileURL
            "Error unmarshaling JSON".toList, .returned)) ∧
    (∀ (message : List Char) (payloadBytes : List UInt8),
      w.marshalPayload (sendToDiscordPayload config.WebhookName config.ProfileURL message) =
        .ok payloadBytes →
      Event.post config.WebhookURL "application/json".toList payloadBytes ∈
        sendToDiscord w config.WebhookURL config.WebhookName config.ProfileURL message) := by
  refine ⟨?_, ?_, ?_, ?_⟩
  · intro err hget
    have hg : getAnswer w sortSlice config.QuizID =
        ([.get ("https://quizizz.com/quiz/".toList ++ config.QuizID),
          .println [.str "Error fetching data:".toList, .err err]],
          some "Error fetching data".toList) := by
      simp only [getAnswer, hget]
    exact ⟨hg, by simp only [main, hcfg, hg]⟩
  · intro resp bytes err hget hbody
    have hg : getAnswer w sortSlice config.QuizID =
        ([.get ("https://quizizz.com/quiz/".toList ++ config.QuizID),
          .println [.str "Error reading response body:".toList, .err err]],
          some "Error reading response body".toList) := by
      simp only [getAnswer, hget, hbody]
    exact ⟨hg, by simp only [main, hcfg, hg]⟩
  · intro resp body err hget hbody hdec
    have hg : getAnswer w sortSlice config.QuizID =
        ([.get ("https://quizizz.com/quiz/".toList ++ config.QuizID),
          .println [.str "Error unmarshaling JSON:".toList, .err err]],
          some "Error unmarshaling JSON".toList) := by
      simp only [getAnswer, hget, hbody, hdec]
    exact ⟨hg, by simp only [main, hcfg, hg]⟩
  · intro message payloadBytes hm
    simp only [sendToDiscord, hm]
    exact List.mem_cons_self _ _

/-- C5 amended, at a world whose quiz platform cannot be reached. -/
theorem fetch_failure_message_is_sent_witness :
    loadConfig fetchDownWorld "config.json".toList = .ok sampleConfig ∧
    fetchDownWorld.httpGet ("https://quizizz.com/quiz/".toList ++ sampleConfig.QuizID) =
      .error "dial tcp: no route to host".toList ∧
    getAnswer fetchDownWorld stableSort sampleConfig.QuizID =
      ([.get ("https://quizizz.com/quiz/".toList ++ sampleConfig.QuizID),
        .println [.str "Error fetching data:".toList, .err "dial tcp: no route to host".toList]],
        some "Error fetching data".toList) ∧
    main fetchDownWorld stableSort =
      ([.get ("https://quizizz.com/quiz/".toList ++ sampleConfig.QuizID),
        .println [.str "Error fetching data:".toList, .err "dial tcp: no route to host".toList]] ++
        sendToDiscord fetchDownWorld sampleConfig.WebhookURL sampleConfig.WebhookName
          sampleConfig.ProfileURL "Error fetching data".toList, .returned) ∧
    Event.post sampleConfig.WebhookURL "application/json".toList [123, 125] ∈
      sendToDiscord fetchDownWorld sampleConfig.WebhookURL sampleConfig.WebhookName
        sampleConfig.ProfileURL "Error fetching data".toList :=
  ⟨rfl, rfl, rfl,
    ((fetch_failure_message_is_sent stableSort fetchDownWorld sampleConfig rfl).1
      "dial tcp: no route to host".toList rfl).2,
    (fetch_failure_message_is_sent stableSort fetchDownWorld sampleConfig rfl).2.2.2
      "Error fetching data".toList [123, 125] rfl⟩

/-- C6: the output of `removeHTMLTags` has no `<` with a `>` anywhere behind it; so at
no position of the output does the pattern `<[^>]*>` match. -/
theorem removeHTMLTags_has_no_tag (s : List Char) :
    (∀ a b c : List Char, removeHTMLTags s ≠ a ++ '<' :: (b ++ '>' :: c)) ∧
    (∀ a u : List Char, removeHTMLTags s = a ++ u → matchTag u = none) :=
  ⟨(removeHTMLTags_tagFree s).not_split, (removeHTMLTags_tagFree s).matchTag_none⟩

/-- C7 as stated fails: the removal of the inner `&nbsp;` of `&nb&nbsp;sp;` joins the text
around it to a new `&nbsp;`, which the single pass of `strings.ReplaceAll` leaves. -/
theorem nbsp_survives_counterexample :
    removeHTMLTags "&nb&nbsp;sp;".toList = "&nbsp;".toList ∧
    Occurs "&nbsp;".toList (removeHTMLTags "&nb&nbsp;sp;".toList) :=
  ⟨by decide, [], [], by decide⟩

/-- C7, amended: the output of `removeHTMLTags` holds an occurrence of `&nbsp;` exactly
when the text left by the line-break replacement and the tag removal holds `&nbsp;` with
one or more further whole `&nbsp;` set between its characters: the single deletion pass
takes those out and joins what is left to a new `&nbsp;`.  For every other input the
output holds no `&nbsp;`. -/
theorem removeHTMLTags_nbsp_iff (s : List Char) :
    Occurs "&nbsp;".toList (removeHTMLTags s) ↔
      JoinedEntity (deleteTags (ReplaceAll s "<br>".toList "\n".toList)) := by
  have e : removeHTMLTags s =
      ReplaceAll (deleteTags (ReplaceAll s "<br>".toList "\n".toList))
        ['&', 'n', 'b', 's', 'p', ';'] [] := rfl
  rw [e, nbsp_toList]
  exact ⟨joinedEntity_of_occurs _ _ (Nat.le_refl _), occurs_of_joinedEntity _⟩

/-- C7 amended, at a text with markup, a line break, an entity and two ampersands that
begin no `&nbsp;`: nothing is joined and the output holds no `&nbsp;`. -/
theorem removeHTMLTags_nbsp_iff_witness :
    ¬ JoinedEntity (deleteTags (ReplaceAll "<b>Q&A</b> &amp;&nbsp;n<br>sp;".toList
      "<br>".toList "\n".toList)) ∧
    ¬ Occurs "&nbsp;".toList (removeHTMLTags "<b>Q&A</b> &amp;&nbsp;n<br>sp;".toList) ∧
    removeHTMLTags "<b>Q&A</b> &amp;&nbsp;n<br>sp;".toList = "Q&A &amp;n\nsp;".toList :=
  have hno : ¬ Occurs "&nbsp;".toList
      (removeHTMLTags "<b>Q&A</b> &amp;&nbsp;n<br>sp;".toList) := by
    rw [← occursCheck_iff]
    decide
  ⟨fun hj => hno ((removeHTMLTags_nbsp_iff _).2 hj), hno, by decide⟩

/-- C8 as stated fails: `&nb&nbsp;sp;` is cleaned to `&nbsp;`, and that to the empty
text. -/
theorem removeHTMLTags_twice_counterexample :
    removeHTMLTags (removeHTMLTags "&nb&nbsp;sp;".toList) ≠
      removeHTMLTags "&nb&nbsp;sp;".toList := by
  decide

/-- C8, amended: a second application of `removeHTMLTags` changes nothing exactly when
the output of the first holds no `&nbsp;`. -/
theorem removeHTMLTags_twice_iff (s : List Char) :
    removeHTMLTags (removeHTMLTags s) = removeHTMLTags s ↔
      ¬ Occurs "&nbsp;".toList (removeHTMLTags s) := by
  rw [removeHTMLTags_of_tagFree _ (removeHTMLTags_tagFree s), nbsp_toList]
  constructor
  · intro he hocc
    have := replaceLoop_delete_length_lt _ (by simp) _ _ (Nat.le_refl _) hocc
    rw [he] at this
    exact Nat.lt_irrefl _ this
  · intro hocc
    exact replaceLoop_of_not_occurs _ _ _ _ hocc

/-- C9 as stated fails: a line break inside a markup tag is deleted with the tag, be it
a line break of the input or one that came from a `<br>`. -/
theorem newline_count_counterexample :
    List.count '\n' (removeHTMLTags "<a<br>>".toList) ≠
      List.count '\n' "<a<br>>".toList + countOcc "<br>".toList "<a<br>>".toList ∧
    List.count '\n' (removeHTMLTags "<a\n>".toList) ≠
      List.count '\n' "<a\n>".toList + countOcc "<br>".toList "<a\n>".toList := by
  decide

/-- C9, amended: the first step of `removeHTMLTags` turns every `<br>` into one line break
(line breaks after it: those of the input plus the occurrences of `<br>`); the output has
at most that many line breaks, and exactly that many when no stretch `<...>` of the
text after the first step holds a line break. -/
theorem newline_count_bound (s : List Char) :
    List.count '\n' (ReplaceAll s "<br>".toList "\n".toList) =
      List.count '\n' s + countOcc "<br>".toList s ∧
    List.count '\n' (removeHTMLTags s) ≤ List.count '\n' s + countOcc "<br>".toList s ∧
    (NoBreakInTag (ReplaceAll s "<br>".toList "\n".toList) →
      List.count '\n' (removeHTMLTags s) =
        List.count '\n' s + countOcc "<br>".toList s) := by
  have h1 : List.count '\n' (ReplaceAll s "<br>".toList "\n".toList) =
      List.count '\n' s + countOcc "<br>".toList s := by
    unfold ReplaceAll
    simp only [br_toList, nl_toList]
    exact replaceLoop_br_count _ _ (Nat.le_refl _)
  have h3 : List.count '\n' (removeHTMLTags s) =
      List.count '\n' (deleteTags (ReplaceAll s "<br>".toList "\n".toList)) := by
    unfold removeHTMLTags
    show List.count '\n' (ReplaceAll _ "&nbsp;".toList "".toList) = _
    unfold ReplaceAll
    simp only [nbsp_toList, empty_toList]
    exact replaceLoop_nbsp_count _ _ (Nat.le_refl _)
  refine ⟨h1, ?_, ?_⟩
  · rw [h3, ← h1]
    exact (deleteTagsLoop_sublist _ _).count_le _
  · intro hb
    rw [h3, ← h1]
    exact deleteTagsLoop_count_eq _ _ (Nat.le_refl _) hb

/-- C9 amended, at a text with markup, one `<br>` and one line break. -/
theorem newline_count_bound_witness :
    NoBreakInTag (ReplaceAll "<b>x</b><br>y\nz".toList "<br>".toList "\n".toList) ∧
    List.count '\n' (removeHTMLTags "<b>x</b><br>y\nz".toList) =
      List.count '\n' "<b>x</b><br>y\nz".toList +
        countOcc "<br>".toList "<b>x</b><br>y\nz".toList :=
  ⟨noBreakInTagCheck_sound _ (by decide),
    (newline_count_bound "<b>x</b><br>y\nz".toList).2.2 (noBreakInTagCheck_sound _ (by decide))⟩

/-- C10: the payload `sendToDiscord` builds has the webhook name as username, the
profile URL as avatar URL and exactly one embed, with title "Quiz Answers", the message
as description and colour 3447003. -/
theorem sendToDiscord_payload_fields (webhookName profileURL message : List Char) :
    (sendToDiscordPayload webhookName profileURL message).Username = webhookName ∧
    (sendToDiscordPayload webhookName profileURL message).AvatarURL = profileURL ∧
    (sendToDiscordPayload webhookName profileURL message).Embeds =
      [{ Title := "Quiz Answers".toList, Description := message, Color := 3447003 }] ∧
    (∀ (w : World) (webhookURL : List Char) (payloadBytes : List UInt8),
      w.marshalPayload
          { Username := webhookName, AvatarURL := profileURL,
            Embeds := [{ Title := "Quiz Answers".toList, Description := message,
                         Color := 3447003 }] } = .ok payloadBytes →
      (sendToDiscord w webhookURL webhookName profileURL message).head? =
        some (.post webhookURL "application/json".toList payloadBytes)) := by
  refine ⟨rfl, rfl, rfl, ?_⟩
  intro w webhookURL payloadBytes h
  have h2 : w.marshalPayload (sendToDiscordPayload webhookName profileURL message) =
      .ok payloadBytes := h
  simp only [sendToDiscord, h2, List.head?_cons]

/-- C10, at a world whose encoder and webhook answer. -/
theorem sendToDiscord_payload_fields_witness :
    fetchDownWorld.marshalPayload
        { Username := "bot".toList, AvatarURL := "https://discord.example/avatar.png".toList,
          Embeds := [{ Title := "Quiz Answers".toList, Description := "1. **q**".toList,
                       Color := 3447003 }] } = .ok [123, 125] ∧
    (sendToDiscord fetchDownWorld "https://discord.example/hook".toList "bot".toList
        "https://discord.example/avatar.png".toList "1. **q**".toList).head? =
      some (.post "https://discord.example/hook".toList "application/json".toList [123, 125]) :=
  ⟨rfl, (sendToDiscord_payload_fields "bot".toList "https://discord.example/avatar.png".toList
    "1. **q**".toList).2.2.2 fetchDownWorld "https://discord.example/hook".toList [123, 125] rfl⟩

end QuizizzParser
